import Mathlib

/-!
# Verification of the htmx chat application's broadcast hub and stores

This file gives a shallow embedding, in Lean 4, of the core components of the
`htmx` Go repository and proves the frozen claims about them:

* the WebSocket `Hub` and its coordinator loop `Hub.run`
  (`src/internal/handlers/handlers.go`);
* the `ChatStore` with its two internal indexes
  (`src/internal/models/chat.go`);
* the two broadcast-producing HTTP handlers `CreateRoom` and `CreateChat`
  (`src/internal/handlers/handlers.go`).

Connections are identified by natural numbers (each `*websocket.Conn` is a
distinct pointer; only identity matters to the hub).  The hub's `clients`
field is a Go map used as a set, embedded as a `Finset ℕ`.  Go map iteration
order is unspecified, so the effect of one broadcast is recorded as *sets* of
connections delivered-to and closed, never as an iteration sequence.
-/

namespace Htmx

/-! ## Hub state and events

From `handlers.go`:

```go
type Hub struct {
    clients    map[*websocket.Conn]bool
    broadcast  chan []byte
    register   chan *websocket.Conn
    unregister chan *websocket.Conn
}
```

The three channels feed a single coordinator goroutine (`Hub.run`); the
coordinator consumes one event at a time, so hub behaviour is the fold of a
step function over the sequence of events it dequeues.  A broadcast event
carries, besides the payload, the set `fails` of connections whose
`conn.WriteMessage` call returns a non-nil error when attempted during this
event (an environment input: the peers that happen to be gone).
-/

structure HubState where
  clients : Finset ℕ
deriving DecidableEq

inductive Event where
  | register (c : ℕ)
  | unregister (c : ℕ)
  | broadcast (payload : String) (fails : Finset ℕ)
deriving DecidableEq

/-- Observable effects of processing one event: the payload written (for a
broadcast event), the set of connections the payload was successfully written
to, and the set of connections closed while handling the event. -/
structure EOut where
  payload : Option String
  delivered : Finset ℕ
  closed : Finset ℕ
deriving DecidableEq

/-- One iteration of the `for { select { ... } }` loop in `Hub.run`:

```go
case conn := <-h.register:
    h.clients[conn] = true
case conn := <-h.unregister:
    if _, ok := h.clients[conn]; ok {
        delete(h.clients, conn)
        conn.Close()
    }
case message := <-h.broadcast:
    for conn := range h.clients {
        err := conn.WriteMessage(websocket.TextMessage, message)
        if err != nil {
            conn.Close()
            delete(h.clients, conn)
        }
    }
```

In the broadcast arm the loop ranges over the map as it was when the event
arrived; the only entries deleted are ones already produced by the iterator,
so every connection in `clients` receives exactly one write attempt.  The
attempts that fail (`fails`) are closed and deleted, the rest receive the
payload. -/
def HubState.step (s : HubState) : Event → HubState × EOut
  | .register c => (⟨insert c s.clients⟩, ⟨none, ∅, ∅⟩)
  | .unregister c =>
      if c ∈ s.clients then (⟨s.clients.erase c⟩, ⟨none, ∅, {c}⟩)
      else (s, ⟨none, ∅, ∅⟩)
  | .broadcast p fails =>
      (⟨s.clients \ fails⟩, ⟨some p, s.clients \ fails, s.clients ∩ fails⟩)

/-- The coordinator loop run on a finite event sequence: final state plus the
per-event effect trace. -/
def HubState.run (s : HubState) : List Event → HubState × List EOut
  | [] => (s, [])
  | e :: rest =>
      let se := s.step e
      let r := se.1.run rest
      (r.1, se.2 :: r.2)

/-- Payloads received by connection `c` over an effect trace, in order. -/
def msgsTo (c : ℕ) (outs : List EOut) : List String :=
  outs.filterMap fun o => if c ∈ o.delivered then o.payload else none

/-- Number of times connection `c` is closed over an effect trace. -/
def closesOf (c : ℕ) (outs : List EOut) : ℕ :=
  (outs.filter fun o => c ∈ o.closed).length

/-! ## Claims C1, C2 : broadcast delivery -/

/-- Claim C1:  If a `Broadcast(payload)` event is processed in a registry of `N`
connections and the send to connection `k` fails while all other sends
succeed, then the payload is delivered to all `N - 1` other connections (no
early abort), `k` is closed, and exactly the `N - 1` others survive in the
registry. -/
theorem broadcast_partial_failure_isolation
    (s : HubState) (p : String) (k : ℕ) (hk : k ∈ s.clients) :
    let r := s.step (.broadcast p {k})
    r.2.delivered = s.clients.erase k ∧
    r.2.delivered.card = s.clients.card - 1 ∧
    r.2.payload = some p ∧
    r.2.closed = {k} ∧
    r.1.clients = s.clients.erase k ∧
    r.1.clients.card = s.clients.card - 1 := by
  have hsd : s.clients \ ({k} : Finset ℕ) = s.clients.erase k := by
    ext x
    simp [Finset.mem_sdiff, Finset.mem_erase, and_comm]
  have hin : s.clients ∩ ({k} : Finset ℕ) = {k} := by
    ext x
    simp only [Finset.mem_inter, Finset.mem_singleton]
    constructor
    · exact fun h => h.2
    · rintro rfl; exact ⟨hk, rfl⟩
  refine ⟨hsd, ?_, rfl, hin, hsd, ?_⟩ <;>
    simp [HubState.step, hsd, Finset.card_erase_of_mem hk]

theorem broadcast_partial_failure_isolation_witness :
    (1 : ℕ) ∈ ({0, 1, 2} : Finset ℕ) ∧
    (let r := HubState.step ⟨{0, 1, 2}⟩ (.broadcast "new-chat" {1})
     r.2.delivered = ({0, 1, 2} : Finset ℕ).erase 1 ∧
     r.2.delivered.card = ({0, 1, 2} : Finset ℕ).card - 1 ∧
     r.2.payload = some "new-chat" ∧
     r.2.closed = {1} ∧
     r.1.clients = ({0, 1, 2} : Finset ℕ).erase 1 ∧
     r.1.clients.card = ({0, 1, 2} : Finset ℕ).card - 1) :=
  ⟨by decide,
   broadcast_partial_failure_isolation ⟨{0, 1, 2}⟩ "new-chat" 1 (by decide)⟩

/-- Claim C2:  A `Broadcast(payload)` event in which no send fails delivers the
exact payload to every registered connection — one delivery per connection,
none closed — and leaves the registry unchanged. -/
theorem broadcast_completeness (s : HubState) (p : String) :
    let r := s.step (.broadcast p ∅)
    r.2.delivered = s.clients ∧
    r.2.delivered.card = s.clients.card ∧
    r.2.payload = some p ∧
    r.2.closed = ∅ ∧
    r.1 = s := by
  refine ⟨by simp [HubState.step], by simp [HubState.step], rfl,
    by simp [HubState.step], ?_⟩
  simp only [HubState.step, Finset.sdiff_empty]

/-! ## Claim C4 : register / unregister idempotence -/

/-- Claim C4:  Registering the same connection twice leaves the registry exactly
as after the first registration, and an `Unregister(c)` for an unregistered
`c` is a no-op: the registry is unchanged, nothing is closed, and nothing is
delivered (the branch simply falls through, there is no error path). -/
theorem register_unregister_idempotence (s : HubState) (c : ℕ) :
    ((s.step (.register c)).1.step (.register c)).1 =
      (s.step (.register c)).1 ∧
    (c ∉ s.clients → s.step (.unregister c) = (s, ⟨none, ∅, ∅⟩)) := by
  constructor
  · simp [HubState.step, Finset.insert_idem]
  · intro hc
    simp [HubState.step, hc]

theorem register_unregister_idempotence_witness :
    ((HubState.step ⟨{0, 1}⟩ (.register 7)).1.step (.register 7)).1 =
        (HubState.step ⟨{0, 1}⟩ (.register 7)).1 ∧
      HubState.step ⟨{0, 1}⟩ (.unregister 7) = (⟨{0, 1}⟩, ⟨none, ∅, ∅⟩) :=
  ⟨(register_unregister_idempotence ⟨{0, 1}⟩ 7).1,
   (register_unregister_idempotence ⟨{0, 1}⟩ 7).2 (by decide)⟩

/-! ## Claim C3 : end-to-end scenario -/

/-- Claim C3:  Starting from an empty registry, the event sequence
`Register(A); Register(B); Broadcast("new-room"); Unregister(A);
Broadcast("new-chat")` (no send failures) delivers exactly one `"new-room"`
message to each of `A` and `B`, delivers `"new-chat"` only to `B`, and closes
`A`'s connection (`A = 0`, `B = 1`). -/
theorem end_to_end_scenario :
    msgsTo 0 (HubState.run ⟨∅⟩
      [.register 0, .register 1, .broadcast "new-room" ∅,
       .unregister 0, .broadcast "new-chat" ∅]).2 = ["new-room"] ∧
    msgsTo 1 (HubState.run ⟨∅⟩
      [.register 0, .register 1, .broadcast "new-room" ∅,
       .unregister 0, .broadcast "new-chat" ∅]).2 = ["new-room", "new-chat"] ∧
    closesOf 0 (HubState.run ⟨∅⟩
      [.register 0, .register 1, .broadcast "new-room" ∅,
       .unregister 0, .broadcast "new-chat" ∅]).2 = 1 ∧
    closesOf 1 (HubState.run ⟨∅⟩
      [.register 0, .register 1, .broadcast "new-room" ∅,
       .unregister 0, .broadcast "new-chat" ∅]).2 = 0 := by
  decide

/-! ## Claims C5, C7 : eviction, unregister and per-producer order

Both claims rest on the same fact about `Hub.run`: a connection that is not
in `clients` and is never the subject of a `register` event is invisible to
the loop — it receives nothing, is never closed, and never re-enters the
registry. -/

theorem msgsTo_cons_of_mem {c : ℕ} {o : EOut} {p : String}
    (h : c ∈ o.delivered) (hp : o.payload = some p) (outs : List EOut) :
    msgsTo c (o :: outs) = p :: msgsTo c outs := by
  simp [msgsTo, List.filterMap_cons, h, hp]

theorem msgsTo_cons_none {c : ℕ} {o : EOut} (hp : o.payload = none)
    (outs : List EOut) : msgsTo c (o :: outs) = msgsTo c outs := by
  simp [msgsTo, List.filterMap_cons, hp]

theorem closesOf_cons (c : ℕ) (o : EOut) (outs : List EOut) :
    closesOf c (o :: outs) = (if c ∈ o.closed then 1 else 0) + closesOf c outs := by
  simp only [closesOf, List.filter_cons]
  by_cases h : c ∈ o.closed <;> simp [h, Nat.add_comm]

theorem no_register_no_contact (c : ℕ) (evs : List Event) :
    ∀ s : HubState, c ∉ s.clients → Event.register c ∉ evs →
      c ∉ (s.run evs).1.clients ∧ msgsTo c (s.run evs).2 = [] ∧
        closesOf c (s.run evs).2 = 0 := by
  induction evs with
  | nil =>
      intro s hc _
      simpa [HubState.run, msgsTo, closesOf] using hc
  | cons e rest ih =>
      intro s hc hr
      have hr1 : Event.register c ∉ rest := fun h =>
        hr (List.mem_cons_of_mem _ h)
      have hstep : c ∉ (s.step e).1.clients ∧ c ∉ (s.step e).2.delivered ∧
          c ∉ (s.step e).2.closed := by
        cases e with
        | register d =>
            have hdc : c ≠ d := by
              rintro rfl
              exact hr (List.mem_cons_self _ _)
            simp [HubState.step, Finset.mem_insert, hdc, hc]
        | unregister d =>
            by_cases hd : d ∈ s.clients
            · have hdc : c ≠ d := by
                rintro rfl
                exact hc hd
              simp [HubState.step, hd, Finset.mem_erase, hdc, hc]
            · simp [HubState.step, hd, hc]
        | broadcast p fails =>
            simp [HubState.step, Finset.mem_sdiff, Finset.mem_inter, hc]
      obtain ⟨h1, h2, h3⟩ := hstep
      obtain ⟨ih1, ih2, ih3⟩ := ih (s.step e).1 h1 hr1
      refine ⟨ih1, ?_, ?_⟩
      · simp [HubState.run, msgsTo, List.filterMap_cons, h2] at ih2 ⊢
        exact ih2
      · simp [HubState.run, closesOf, List.filter_cons, h3] at ih3 ⊢
        exact ih3

/-- Claim C7:  If a producer enqueues `Register(c); Broadcast(m1);
Unregister(c)` (the broadcast's send to `c` succeeding) and `c` is never
re-registered afterwards, then the coordinator — which consumes the events in
exactly that order — delivers `m1` to `c`, closes `c` exactly once (at the
`Unregister`), and `c` receives no payload from any broadcast processed after
its `Unregister`: its complete message trace is `[m1]`. -/
theorem fifo_per_producer
    (s : HubState) (c : ℕ) (m1 : String) (fails : Finset ℕ)
    (rest : List Event) (hf : c ∉ fails)
    (hrest : Event.register c ∉ rest) :
    msgsTo c (s.run (.register c :: .broadcast m1 fails ::
      .unregister c :: rest)).2 = [m1] ∧
    closesOf c (s.run (.register c :: .broadcast m1 fails ::
      .unregister c :: rest)).2 = 1 ∧
    c ∉ (s.run (.register c :: .broadcast m1 fails ::
      .unregister c :: rest)).1.clients := by
  have hc2 : c ∈ insert c s.clients \ fails := by
    simp [Finset.mem_sdiff, hf]
  have hcin : c ∉ insert c s.clients ∩ fails := by
    simp [Finset.mem_inter, hf]
  have hc3 : c ∉ (insert c s.clients \ fails).erase c := Finset.not_mem_erase _ _
  obtain ⟨t1, t2, t3⟩ :=
    no_register_no_contact c rest ⟨(insert c s.clients \ fails).erase c⟩ hc3 hrest
  have hrun : s.run (.register c :: .broadcast m1 fails ::
      .unregister c :: rest) =
      (((⟨(insert c s.clients \ fails).erase c⟩ : HubState).run rest).1,
        ⟨none, ∅, ∅⟩ ::
        ⟨some m1, insert c s.clients \ fails, insert c s.clients ∩ fails⟩ ::
        ⟨none, ∅, ({c} : Finset ℕ)⟩ ::
        ((⟨(insert c s.clients \ fails).erase c⟩ : HubState).run rest).2) := by
    simp [HubState.run, HubState.step, hc2]
  rw [hrun]
  refine ⟨?_, ?_, t1⟩
  · rw [msgsTo_cons_none rfl, msgsTo_cons_of_mem hc2 rfl, msgsTo_cons_none rfl,
      t2]
  · rw [closesOf_cons, closesOf_cons, closesOf_cons, t3]
    simp [hcin]

theorem fifo_per_producer_witness :
    msgsTo 0 (HubState.run ⟨∅⟩ (.register 0 :: .broadcast "new-room" ∅ ::
      .unregister 0 :: [.broadcast "new-chat" ∅])).2 = ["new-room"] ∧
    closesOf 0 (HubState.run ⟨∅⟩ (.register 0 :: .broadcast "new-room" ∅ ::
      .unregister 0 :: [.broadcast "new-chat" ∅])).2 = 1 ∧
    0 ∉ (HubState.run ⟨∅⟩ (.register 0 :: .broadcast "new-room" ∅ ::
      .unregister 0 :: [.broadcast "new-chat" ∅])).1.clients :=
  fifo_per_producer ⟨∅⟩ 0 "new-room" ∅ [.broadcast "new-chat" ∅]
    (by decide) (by decide)

/-- Claim C5 counterexample:  The claim quantifies over *every* event sequence
in which `c` is evicted during a broadcast and a later `Unregister(c)` is
processed.  If `c` is re-registered between the eviction and the
`Unregister`, the `Unregister` finds `c` present and closes it a second time:
in the run `Register(0); Broadcast("new-room") with the send to 0 failing;
Register(0); Unregister(0)` connection `0` is closed twice, refuting "the
Unregister finds c absent and issues no second close" as stated. -/
theorem double_close_on_reregistration :
    closesOf 0 (HubState.run ⟨∅⟩
      [.register 0, .broadcast "new-room" {0},
       .register 0, .unregister 0]).2 = 2 := by
  decide

/-- Claim C5 as amended:  If connection `c` is evicted by the coordinator during
a `Broadcast` (its send fails, so it is closed and removed) and `c` is not
re-registered afterwards, then the remainder of the run — including any later
`Unregister(c)` event, which finds `c` absent and falls through its membership
guard — closes `c` zero further times: `c` is closed exactly once in the whole
run, at the eviction. -/
theorem eviction_then_unregister_single_close
    (s : HubState) (c : ℕ) (p : String) (fails : Finset ℕ)
    (rest : List Event) (hc : c ∈ s.clients) (hf : c ∈ fails)
    (hrest : Event.register c ∉ rest) :
    closesOf c (s.run (.broadcast p fails :: rest)).2 = 1 ∧
    c ∉ (s.step (.broadcast p fails)).1.clients ∧
    c ∉ (s.run (.broadcast p fails :: rest)).1.clients := by
  have h1 : c ∉ s.clients \ fails := by
    simp [Finset.mem_sdiff, hf]
  have h2 : c ∈ s.clients ∩ fails := by
    simp [Finset.mem_inter, hc, hf]
  obtain ⟨t1, t2, t3⟩ :=
    no_register_no_contact c rest ⟨s.clients \ fails⟩ h1 hrest
  have hrun : s.run (.broadcast p fails :: rest) =
      (((⟨s.clients \ fails⟩ : HubState).run rest).1,
        ⟨some p, s.clients \ fails, s.clients ∩ fails⟩ ::
        ((⟨s.clients \ fails⟩ : HubState).run rest).2) := by
    simp [HubState.run, HubState.step]
  rw [hrun]
  refine ⟨?_, ?_, t1⟩
  · rw [closesOf_cons, t3]
    simp [h2]
  · simpa [HubState.step] using h1

theorem eviction_then_unregister_single_close_witness :
    closesOf 0 (HubState.run ⟨{0, 1}⟩
      (.broadcast "new-chat" {0} :: [.unregister 0])).2 = 1 ∧
    0 ∉ (HubState.step ⟨{0, 1}⟩ (.broadcast "new-chat" {0})).1.clients ∧
    0 ∉ (HubState.run ⟨{0, 1}⟩
      (.broadcast "new-chat" {0} :: [.unregister 0])).1.clients :=
  eviction_then_unregister_single_close ⟨{0, 1}⟩ 0 "new-chat" {0}
    [.unregister 0] (by decide) (by decide) (by decide)

/-! ## Claim C6 : the hub loop survives per-connection failures

`HubState.step` embeds the code `Hub.run` actually contains: the only failure
mode it handles is `conn.WriteMessage` *returning* an error.  Go has a second
failure channel, panics, and `Hub.run` contains no `recover` (nor does
anything else in the repository), so by Go semantics an unrecovered panic
raised inside one connection's `WriteMessage` call would propagate out of
`Hub.run` and terminate the hub goroutine — and, being unrecovered at the top
of a goroutine, the process.  `HubState.stepExc` layers this on the step
function: each attempted send has an outcome (`ok`, an error return `err`, or
`panics`), and an event whose handling panics yields `none` (the loop does
not reach the next event). -/

inductive SendOutcome where
  | ok
  | err
  | panics
deriving DecidableEq

inductive EventExc where
  | register (c : ℕ)
  | unregister (c : ℕ)
  | broadcast (payload : String) (outcome : ℕ → SendOutcome)

def HubState.stepExc (s : HubState) : EventExc → Option (HubState × EOut)
  | .register c => some (s.step (.register c))
  | .unregister c => some (s.step (.unregister c))
  | .broadcast p outcome =>
      if (s.clients.filter fun c => outcome c = .panics).Nonempty then none
      else
        some (s.step (.broadcast p (s.clients.filter fun c => outcome c = .err)))

/-- Claim C6 counterexample:  With one registered connection whose send panics,
handling the broadcast event does not complete: `Hub.run` has no `recover`,
so the hub loop terminates instead of continuing to the next event, refuting
the claim for the "crash inside handling one connection's send" case it
explicitly includes. -/
theorem hub_loop_dies_on_panicking_send :
    HubState.stepExc ⟨{0}⟩
      (.broadcast "new-chat" fun _ => SendOutcome.panics) = none := by
  rfl

/-- Claim C6 as amended:  For every registry state and every `Register`,
`Unregister`, or `Broadcast` event whose per-connection send outcomes are
success or an error return (the failure mode the code handles), the
coordinator's handling of the event completes, so the hub loop continues to
the next event; no such connection failure terminates the loop.  A panic
inside a send is *not* caught (there is no `recover`) and would terminate the
hub loop. -/
theorem coordinator_survives_handled_failures
    (s : HubState) (e : EventExc)
    (h : ∀ p outcome, e = .broadcast p outcome →
      ∀ c ∈ s.clients, outcome c ≠ SendOutcome.panics) :
    (s.stepExc e).isSome = true := by
  cases e with
  | register c => rfl
  | unregister c => simp [HubState.stepExc, HubState.step]
  | broadcast p outcome =>
      have h2 := h p outcome rfl
      have hfilter : (s.clients.filter fun c => outcome c = .panics) = ∅ := by
        refine Finset.filter_eq_empty_iff.mpr ?_
        intro c hc
        exact h2 c hc
      simp [HubState.stepExc, hfilter]

theorem coordinator_survives_handled_failures_witness :
    (HubState.stepExc ⟨{0, 1}⟩
      (.broadcast "new-room" fun c =>
        if c = 1 then SendOutcome.err else SendOutcome.ok)).isSome = true := by
  refine coordinator_survives_handled_failures ⟨{0, 1}⟩ _ ?_
  intro p outcome heq c _ hcon
  cases heq
  by_cases hc1 : c = 1 <;> simp [hc1] at hcon

/-! ## The chat store (src/internal/models/chat.go)

`ChatStore` keeps two indexes over the same chats: `chats`, a Go map from
chat ID to the chat, and `chatsByRoom`, a Go map from room ID to the slice of
that room's chats in insertion order.  A Go map is embedded as an association
list with pairwise-distinct keys (lookup finds the unique entry; the entry
*order* of the list is irrelevant to the claims, which only use lookups and
the value multiset).  `time.Time` is embedded as a natural number; chats are
compared by value (the Go code stores `*Chat` pointers, each allocated once
and never mutated, so pointer identity refines value identity and the claims
only inspect values).

`sync.RWMutex` fields only serialize the methods; each method body runs
atomically under the lock, so the store is the fold of the method bodies. -/

def mapLookup {α : Type} (k : String) : List (String × α) → Option α
  | [] => none
  | (k', v) :: rest => if k' = k then some v else mapLookup k rest

def mapInsert {α : Type} (k : String) (v : α) :
    List (String × α) → List (String × α)
  | [] => [(k, v)]
  | (k', v') :: rest =>
      if k' = k then (k, v) :: rest else (k', v') :: mapInsert k v rest

def mapErase {α : Type} (k : String) : List (String × α) → List (String × α)
  | [] => []
  | (k', v') :: rest => if k' = k then rest else (k', v') :: mapErase k rest

def keysOf {α : Type} (m : List (String × α)) : List String := m.map (·.1)

structure Chat where
  id : String
  roomId : String
  username : String
  message : String
  createdAt : ℕ
deriving DecidableEq

structure ChatStore where
  chats : List (String × Chat)
  chatsByRoom : List (String × List Chat)
deriving DecidableEq

/-- Method NewChatStore: both indexes start empty. -/
def NewChatStore : ChatStore := ⟨[], []⟩

/-- Indexing `s.chatsByRoom[roomID]`: indexing a Go map yields the zero value (`nil`
slice) for an absent key. -/
def ChatStore.byRoom (s : ChatStore) (roomId : String) : List Chat :=
  (mapLookup roomId s.chatsByRoom).getD []

/-- The `make` + `copy` idiom in `GetChatsByRoom`: a fresh slice with the
same elements, so the caller can never alias the store's internal slice. -/
def copySlice : List Chat → List Chat
  | [] => []
  | c :: rest => c :: copySlice rest

/-- Method GetChats: all values of the `chats` map (Go map iteration order is
unspecified; only the multiset of values is meaningful). -/
def ChatStore.GetChats (s : ChatStore) : List Chat := s.chats.map (·.2)

/-- Method GetChatsByRoom: a copy of the room's slice. -/
def ChatStore.GetChatsByRoom (s : ChatStore) (roomId : String) : List Chat :=
  copySlice (s.byRoom roomId)

/-- Method AddChat: insert into the `chats` map keyed by `chat.ID` and append to
the room's slice in `chatsByRoom`. -/
def ChatStore.AddChat (s : ChatStore) (c : Chat) : ChatStore :=
  { chats := mapInsert c.id c s.chats
    chatsByRoom :=
      mapInsert c.roomId (s.byRoom c.roomId ++ [c]) s.chatsByRoom }

/-- The `for i, c := range roomChats { if c.ID == id { ...; break } }` loop of
`DeleteChat`: drop the first element with the given ID, reporting whether one
was found (if none is found the loop performs no map write). -/
def removeFirst (id : String) : List Chat → List Chat × Bool
  | [] => ([], false)
  | c :: rest =>
      if c.id = id then (rest, true)
      else
        let r := removeFirst id rest
        (c :: r.1, r.2)

/-- Method DeleteChat: if the ID is absent return `false`; otherwise delete from
the `chats` map, splice the chat out of its room's slice (first match only,
then `break`), and return `true`. -/
def ChatStore.DeleteChat (s : ChatStore) (id : String) : ChatStore × Bool :=
  match mapLookup id s.chats with
  | none => (s, false)
  | some chat =>
      let r := removeFirst id (s.byRoom chat.roomId)
      ({ chats := mapErase id s.chats
         chatsByRoom :=
           if r.2 then mapInsert chat.roomId r.1 s.chatsByRoom
           else s.chatsByRoom }, true)

/-- Method DeleteChatsByRoom: delete every chat of the room's slice from the
`chats` map, then delete the room's key from `chatsByRoom`. -/
def ChatStore.DeleteChatsByRoom (s : ChatStore) (roomId : String) : ChatStore :=
  { chats := (s.byRoom roomId).foldl (fun m c => mapErase c.id m) s.chats
    chatsByRoom := mapErase roomId s.chatsByRoom }

/-! ## Claim C10 : GetChatsByRoom after a sequence of AddChat -/

theorem copySlice_eq (l : List Chat) : copySlice l = l := by
  induction l with
  | nil => rfl
  | cons c rest ih => simp [copySlice, ih]

theorem mapLookup_insert_self {α : Type} (k : String) (v : α)
    (m : List (String × α)) : mapLookup k (mapInsert k v m) = some v := by
  induction m with
  | nil => simp [mapInsert, mapLookup]
  | cons p rest ih =>
      by_cases h : p.1 = k <;>
        simp [mapInsert, mapLookup, h, ih]

theorem mapLookup_insert_ne {α : Type} {k k' : String} (h : k' ≠ k) (v : α)
    (m : List (String × α)) : mapLookup k (mapInsert k' v m) = mapLookup k m := by
  induction m with
  | nil => simp [mapInsert, mapLookup, h]
  | cons p rest ih =>
      by_cases hp : p.1 = k'
      · simp [mapInsert, mapLookup, hp, h]
      · by_cases hk : p.1 = k <;>
          simp [mapInsert, mapLookup, hp, hk, ih, Ne.symm h]

theorem byRoom_AddChat (s : ChatStore) (c : Chat) (r : String) :
    (s.AddChat c).byRoom r =
      if c.roomId = r then s.byRoom r ++ [c] else s.byRoom r := by
  by_cases h : c.roomId = r
  · subst h
    simp [ChatStore.AddChat, ChatStore.byRoom, mapLookup_insert_self]
  · simp [ChatStore.AddChat, ChatStore.byRoom, h, mapLookup_insert_ne h]

/-- The store obtained from `NewChatStore` by the given sequence of `AddChat`
calls, in order. -/
def applyAdds (l : List Chat) : ChatStore :=
  l.foldl ChatStore.AddChat NewChatStore

theorem byRoom_applyAdds_aux (r : String) (l : List Chat) :
    ∀ s : ChatStore, (l.foldl ChatStore.AddChat s).byRoom r =
      s.byRoom r ++ l.filter fun c => c.roomId == r := by
  induction l with
  | nil => intro s; simp
  | cons c rest ih =>
      intro s
      rw [List.foldl_cons, ih, byRoom_AddChat, List.filter_cons]
      by_cases h : c.roomId = r <;> simp [h]

/-- Claim C10:  After any sequence of `AddChat` calls starting from
`NewChatStore`, `GetChatsByRoom r` returns exactly the added chats whose
`RoomID` is `r`, in insertion order; the returned slice is the `make`+`copy`
image (`copySlice`) of the internal index, a fresh list, so the store retains
no reference to it (and reading mutates nothing — the method only takes the
read lock). -/
theorem getChatsByRoom_insertion_order (l : List Chat) (r : String) :
    (applyAdds l).GetChatsByRoom r = l.filter fun c => c.roomId == r := by
  rw [ChatStore.GetChatsByRoom, copySlice_eq, applyAdds,
    byRoom_applyAdds_aux]
  simp [NewChatStore, ChatStore.byRoom, mapLookup]

/-! ## Association-map lemmas

Facts about the embedding of Go maps as association lists.  A well-formed map
value has pairwise-distinct keys (`(keysOf m).Nodup`); the operations
preserve this and behave as Go map assignment, deletion and indexing. -/

theorem keysOf_nil {α : Type} : keysOf ([] : List (String × α)) = [] := rfl

theorem keysOf_cons {α : Type} (k : String) (v : α) (m : List (String × α)) :
    keysOf ((k, v) :: m) = k :: keysOf m := rfl

theorem mem_keysOf_of_mem {α : Type} {p : String × α} {m : List (String × α)}
    (h : p ∈ m) : p.1 ∈ keysOf m := List.mem_map_of_mem _ h

theorem mapInsert_nil {α : Type} (k : String) (v : α) :
    mapInsert k v [] = [(k, v)] := rfl

theorem mapInsert_cons_eq {α : Type} (k : String) (v v' : α)
    (rest : List (String × α)) :
    mapInsert k v ((k, v') :: rest) = (k, v) :: rest := by
  simp [mapInsert]

theorem mapInsert_cons_ne {α : Type} {k k' : String} (h : k' ≠ k) (v v' : α)
    (rest : List (String × α)) :
    mapInsert k v ((k', v') :: rest) = (k', v') :: mapInsert k v rest := by
  simp [mapInsert, h]

theorem mapErase_nil {α : Type} (k : String) :
    mapErase k ([] : List (String × α)) = [] := rfl

theorem mapErase_cons_eq {α : Type} (k : String) (v' : α)
    (rest : List (String × α)) : mapErase k ((k, v') :: rest) = rest := by
  simp [mapErase]

theorem mapErase_cons_ne {α : Type} {k k' : String} (h : k' ≠ k) (v' : α)
    (rest : List (String × α)) :
    mapErase k ((k', v') :: rest) = (k', v') :: mapErase k rest := by
  simp [mapErase, h]

theorem mapLookup_cons_eq {α : Type} (k : String) (v' : α)
    (rest : List (String × α)) : mapLookup k ((k, v') :: rest) = some v' := by
  simp [mapLookup]

theorem mapLookup_cons_ne {α : Type} {k k' : String} (h : k' ≠ k) (v' : α)
    (rest : List (String × α)) :
    mapLookup k ((k', v') :: rest) = mapLookup k rest := by
  simp [mapLookup, h]

theorem mapLookup_eq_none_iff {α : Type} (k : String) (m : List (String × α)) :
    mapLookup k m = none ↔ k ∉ keysOf m := by
  induction m with
  | nil => simp [mapLookup, keysOf_nil]
  | cons p rest ih =>
      obtain ⟨k', v'⟩ := p
      by_cases h : k' = k
      · subst h
        simp [mapLookup_cons_eq, keysOf_cons]
      · rw [mapLookup_cons_ne h, keysOf_cons]
        simp only [List.mem_cons]
        constructor
        · intro hnone hmem
          rcases hmem with heq | hmem
          · exact h heq.symm
          · exact (ih.mp hnone) hmem
        · intro hmem
          exact ih.mpr fun hm => hmem (Or.inr hm)

theorem mem_of_mapLookup_eq_some {α : Type} {k : String} {v : α}
    {m : List (String × α)} (h : mapLookup k m = some v) : (k, v) ∈ m := by
  induction m with
  | nil => simp [mapLookup] at h
  | cons p rest ih =>
      obtain ⟨k', v'⟩ := p
      by_cases hk : k' = k
      · subst hk
        rw [mapLookup_cons_eq] at h
        obtain rfl : v' = v := Option.some_injective _ h
        exact List.mem_cons_self _ _
      · rw [mapLookup_cons_ne hk] at h
        exact List.mem_cons_of_mem _ (ih h)

theorem mapLookup_eq_some_of_mem {α : Type} {k : String} {v : α}
    {m : List (String × α)} (hnd : (keysOf m).Nodup) (h : (k, v) ∈ m) :
    mapLookup k m = some v := by
  induction m with
  | nil => simp at h
  | cons p rest ih =>
      obtain ⟨k', v'⟩ := p
      rw [keysOf_cons, List.nodup_cons] at hnd
      rcases List.mem_cons.mp h with heq | hmem
      · rw [Prod.mk.injEq] at heq
        rw [heq.1, mapLookup_cons_eq, heq.2]
      · have hkk : k' ≠ k := by
          rintro rfl
          exact hnd.1 (mem_keysOf_of_mem hmem)
        rw [mapLookup_cons_ne hkk]
        exact ih hnd.2 hmem

theorem self_mem_mapInsert {α : Type} (k : String) (v : α)
    (m : List (String × α)) : (k, v) ∈ mapInsert k v m := by
  induction m with
  | nil => simp [mapInsert_nil]
  | cons p rest ih =>
      obtain ⟨k', v'⟩ := p
      by_cases hk : k' = k
      · subst hk
        rw [mapInsert_cons_eq]
        exact List.mem_cons_self _ _
      · rw [mapInsert_cons_ne hk]
        exact List.mem_cons_of_mem _ ih

theorem keysOf_mapInsert_sub {α : Type} {x k : String} {v : α}
    {m : List (String × α)} (h : x ∈ keysOf (mapInsert k v m)) :
    x = k ∨ x ∈ keysOf m := by
  induction m with
  | nil =>
      rw [mapInsert_nil, keysOf_cons, keysOf_nil] at h
      rcases List.mem_cons.mp h with h | h
      · exact Or.inl h
      · simp at h
  | cons p rest ih =>
      obtain ⟨k', v'⟩ := p
      by_cases hk : k' = k
      · subst hk
        rw [mapInsert_cons_eq, keysOf_cons] at h
        rw [keysOf_cons]
        rcases List.mem_cons.mp h with h | h
        · exact Or.inl h
        · exact Or.inr (List.mem_cons_of_mem _ h)
      · rw [mapInsert_cons_ne hk, keysOf_cons] at h
        rw [keysOf_cons]
        rcases List.mem_cons.mp h with h | h
        · exact Or.inr (h ▸ List.mem_cons_self _ _)
        · rcases ih h with h | h
          · exact Or.inl h
          · exact Or.inr (List.mem_cons_of_mem _ h)

theorem keysOf_mapInsert_nodup {α : Type} (k : String) (v : α)
    {m : List (String × α)} (hnd : (keysOf m).Nodup) :
    (keysOf (mapInsert k v m)).Nodup := by
  induction m with
  | nil => simp [mapInsert_nil, keysOf_cons, keysOf_nil]
  | cons p rest ih =>
      obtain ⟨k', v'⟩ := p
      rw [keysOf_cons, List.nodup_cons] at hnd
      by_cases hk : k' = k
      · subst hk
        rw [mapInsert_cons_eq, keysOf_cons]
        exact List.nodup_cons.mpr hnd
      · rw [mapInsert_cons_ne hk, keysOf_cons]
        refine List.nodup_cons.mpr ⟨?_, ih hnd.2⟩
        intro hmem
        rcases keysOf_mapInsert_sub hmem with h | h
        · exact hk h
        · exact hnd.1 h

theorem mem_keysOf_mapErase {α : Type} {x k : String}
    {m : List (String × α)} (h : x ∈ keysOf (mapErase k m)) :
    x ∈ keysOf m := by
  induction m with
  | nil => simpa [mapErase_nil] using h
  | cons p rest ih =>
      obtain ⟨k', v'⟩ := p
      by_cases hk : k' = k
      · subst hk
        rw [mapErase_cons_eq] at h
        rw [keysOf_cons]
        exact List.mem_cons_of_mem _ h
      · rw [mapErase_cons_ne hk, keysOf_cons] at h
        rw [keysOf_cons]
        rcases List.mem_cons.mp h with h | h
        · exact h ▸ List.mem_cons_self _ _
        · exact List.mem_cons_of_mem _ (ih h)

theorem keysOf_mapErase_nodup {α : Type} (k : String)
    {m : List (String × α)} (hnd : (keysOf m).Nodup) :
    (keysOf (mapErase k m)).Nodup := by
  induction m with
  | nil => simp [mapErase_nil, keysOf_nil]
  | cons p rest ih =>
      obtain ⟨k', v'⟩ := p
      rw [keysOf_cons, List.nodup_cons] at hnd
      by_cases hk : k' = k
      · subst hk
        rw [mapErase_cons_eq]
        exact hnd.2
      · rw [mapErase_cons_ne hk, keysOf_cons]
        refine List.nodup_cons.mpr ⟨?_, ih hnd.2⟩
        intro hmem
        exact hnd.1 (mem_keysOf_mapErase hmem)

theorem mem_mapInsert_iff {α : Type} {p : String × α} {k : String} {v : α}
    {m : List (String × α)} (hnd : (keysOf m).Nodup) :
    p ∈ mapInsert k v m ↔ p = (k, v) ∨ (p ∈ m ∧ p.1 ≠ k) := by
  induction m with
  | nil => simp [mapInsert_nil]
  | cons q rest ih =>
      obtain ⟨k', v'⟩ := q
      rw [keysOf_cons, List.nodup_cons] at hnd
      by_cases hk : k' = k
      · subst hk
        rw [mapInsert_cons_eq]
        constructor
        · intro h
          rcases List.mem_cons.mp h with rfl | hm
          · exact Or.inl rfl
          · refine Or.inr ⟨List.mem_cons_of_mem _ hm, fun hp1 => ?_⟩
            exact hnd.1 (hp1 ▸ mem_keysOf_of_mem hm)
        · rintro (rfl | ⟨hm, hne⟩)
          · exact List.mem_cons_self _ _
          · rcases List.mem_cons.mp hm with rfl | hm'
            · exact absurd rfl hne
            · exact List.mem_cons_of_mem _ hm'
      · rw [mapInsert_cons_ne hk]
        constructor
        · intro h
          rcases List.mem_cons.mp h with rfl | hm
          · exact Or.inr ⟨List.mem_cons_self _ _, hk⟩
          · rcases (ih hnd.2).mp hm with h' | ⟨h1, h2⟩
            · exact Or.inl h'
            · exact Or.inr ⟨List.mem_cons_of_mem _ h1, h2⟩
        · rintro (rfl | ⟨hm, hne⟩)
          · exact List.mem_cons_of_mem _ ((ih hnd.2).mpr (Or.inl rfl))
          · rcases List.mem_cons.mp hm with rfl | hm'
            · exact List.mem_cons_self _ _
            · exact List.mem_cons_of_mem _ ((ih hnd.2).mpr (Or.inr ⟨hm', hne⟩))

theorem mem_mapErase_iff {α : Type} {p : String × α} {k : String}
    {m : List (String × α)} (hnd : (keysOf m).Nodup) :
    p ∈ mapErase k m ↔ p ∈ m ∧ p.1 ≠ k := by
  induction m with
  | nil => simp [mapErase_nil]
  | cons q rest ih =>
      obtain ⟨k', v'⟩ := q
      rw [keysOf_cons, List.nodup_cons] at hnd
      by_cases hk : k' = k
      · subst hk
        rw [mapErase_cons_eq]
        constructor
        · intro h
          refine ⟨List.mem_cons_of_mem _ h, fun hp1 => ?_⟩
          exact hnd.1 (hp1 ▸ mem_keysOf_of_mem h)
        · rintro ⟨hm, hne⟩
          rcases List.mem_cons.mp hm with rfl | hm'
          · exact absurd rfl hne
          · exact hm'
      · rw [mapErase_cons_ne hk]
        constructor
        · intro h
          rcases List.mem_cons.mp h with rfl | hm
          · exact ⟨List.mem_cons_self _ _, hk⟩
          · obtain ⟨h1, h2⟩ := (ih hnd.2).mp hm
            exact ⟨List.mem_cons_of_mem _ h1, h2⟩
        · rintro ⟨hm, hne⟩
          rcases List.mem_cons.mp hm with rfl | hm'
          · exact List.mem_cons_self _ _
          · exact List.mem_cons_of_mem _ ((ih hnd.2).mpr ⟨hm', hne⟩)

theorem mapLookup_erase_self {α : Type} (k : String)
    {m : List (String × α)} (hnd : (keysOf m).Nodup) :
    mapLookup k (mapErase k m) = none := by
  rw [mapLookup_eq_none_iff]
  intro hmem
  obtain ⟨p, hp, hpk⟩ := List.mem_map.mp hmem
  obtain ⟨_, h2⟩ := (mem_mapErase_iff hnd).mp hp
  exact h2 hpk

theorem mapLookup_erase_ne {α : Type} {k k' : String} (h : k' ≠ k)
    (m : List (String × α)) :
    mapLookup k (mapErase k' m) = mapLookup k m := by
  induction m with
  | nil => simp [mapErase_nil]
  | cons p rest ih =>
      obtain ⟨k'', v''⟩ := p
      by_cases hk : k'' = k'
      · subst hk
        rw [mapErase_cons_eq, mapLookup_cons_ne h]
      · rw [mapErase_cons_ne hk]
        by_cases hkk : k'' = k
        · subst hkk
          rw [mapLookup_cons_eq, mapLookup_cons_eq]
        · rw [mapLookup_cons_ne hkk, mapLookup_cons_ne hkk, ih]

/-! Lemmas about the `for _, chat := range roomChats { delete(s.chats,
chat.ID) }` fold of `DeleteChatsByRoom`. -/

theorem keysOf_foldl_erase_nodup (l : List Chat) :
    ∀ m : List (String × Chat), (keysOf m).Nodup →
      (keysOf (l.foldl (fun m c => mapErase c.id m) m)).Nodup := by
  induction l with
  | nil => intro m hnd; simpa using hnd
  | cons c rest ih =>
      intro m hnd
      rw [List.foldl_cons]
      exact ih _ (keysOf_mapErase_nodup _ hnd)

theorem mapLookup_foldl_erase (l : List Chat) :
    ∀ m : List (String × Chat), (keysOf m).Nodup → ∀ k : String,
      mapLookup k (l.foldl (fun m c => mapErase c.id m) m) =
        if k ∈ l.map (·.id) then none else mapLookup k m := by
  induction l with
  | nil => intro m _ k; simp
  | cons c rest ih =>
      intro m hnd k
      rw [List.foldl_cons, ih _ (keysOf_mapErase_nodup _ hnd) k]
      by_cases hmem : k ∈ rest.map (·.id)
      · simp [hmem]
      · by_cases hk : k = c.id
        · subst hk
          simp [hmem, mapLookup_erase_self _ hnd]
        · simp [hmem, hk, mapLookup_erase_ne (Ne.symm hk)]

theorem mem_foldl_erase_iff (l : List Chat) :
    ∀ (m : List (String × Chat)), (keysOf m).Nodup →
      ∀ p : String × Chat,
      (p ∈ l.foldl (fun m c => mapErase c.id m) m ↔
        p ∈ m ∧ p.1 ∉ l.map (·.id)) := by
  induction l with
  | nil => intro m _ p; simp
  | cons c rest ih =>
      intro m hnd p
      rw [List.foldl_cons, ih _ (keysOf_mapErase_nodup _ hnd) p,
        mem_mapErase_iff hnd]
      simp only [List.map_cons, List.mem_cons, not_or]
      tauto

/-! Lemmas about the first-match splice loop of `DeleteChat`. -/

theorem removeFirst_found {id : String} :
    ∀ {l : List Chat}, (∃ c ∈ l, c.id = id) → (removeFirst id l).2 = true := by
  intro l
  induction l with
  | nil => rintro ⟨c, hc, _⟩; simp at hc
  | cons c rest ih =>
      rintro ⟨c', hc', hid⟩
      by_cases h : c.id = id
      · simp [removeFirst, h]
      · rcases List.mem_cons.mp hc' with rfl | hm
        · exact absurd hid h
        · simp only [removeFirst, if_neg h]
          exact ih ⟨c', hm, hid⟩

theorem mem_removeFirst {id : String} :
    ∀ {l : List Chat} {c' : Chat}, c' ∈ (removeFirst id l).1 → c' ∈ l := by
  intro l
  induction l with
  | nil => intro c' h; simp [removeFirst] at h
  | cons c rest ih =>
      intro c' h
      by_cases hc : c.id = id
      · rw [show removeFirst id (c :: rest) = (rest, true) from by
          simp [removeFirst, hc]] at h
        exact List.mem_cons_of_mem _ h
      · rw [show removeFirst id (c :: rest) =
            (c :: (removeFirst id rest).1, (removeFirst id rest).2) from by
          simp [removeFirst, hc]] at h
        rcases List.mem_cons.mp h with rfl | hm
        · exact List.mem_cons_self _ _
        · exact List.mem_cons_of_mem _ (ih hm)

theorem mem_removeFirst_of_ne {id : String} :
    ∀ {l : List Chat} {c' : Chat}, c' ∈ l → c'.id ≠ id →
      c' ∈ (removeFirst id l).1 := by
  intro l
  induction l with
  | nil => intro c' h _; simp at h
  | cons c rest ih =>
      intro c' h hne
      by_cases hc : c.id = id
      · rw [show removeFirst id (c :: rest) = (rest, true) from by
          simp [removeFirst, hc]]
        rcases List.mem_cons.mp h with rfl | hm
        · exact absurd hc hne
        · exact hm
      · rw [show removeFirst id (c :: rest) =
            (c :: (removeFirst id rest).1, (removeFirst id rest).2) from by
          simp [removeFirst, hc]]
        rcases List.mem_cons.mp h with rfl | hm
        · exact List.mem_cons_self _ _
        · exact List.mem_cons_of_mem _ (ih hm hne)

theorem removeFirst_ids {id : String} :
    ∀ {l : List Chat}, (l.map (·.id)).Nodup →
      ((removeFirst id l).1.map (·.id)).Nodup ∧
        id ∉ (removeFirst id l).1.map (·.id) := by
  intro l
  induction l with
  | nil => intro _; simp [removeFirst]
  | cons c rest ih =>
      intro hnd
      rw [List.map_cons, List.nodup_cons] at hnd
      obtain ⟨ih1, ih2⟩ := ih hnd.2
      by_cases h : c.id = id
      · rw [show removeFirst id (c :: rest) = (rest, true) from by
          simp [removeFirst, h]]
        exact ⟨hnd.2, h ▸ hnd.1⟩
      · rw [show removeFirst id (c :: rest) =
            (c :: (removeFirst id rest).1, (removeFirst id rest).2) from by
          simp [removeFirst, h]]
        refine ⟨List.nodup_cons.mpr ⟨?_, ih1⟩, ?_⟩
        · intro hmem
          obtain ⟨c'', hc'', hcid⟩ := List.mem_map.mp hmem
          have hcid' : c''.id = c.id := hcid
          have : c.id ∈ rest.map (·.id) :=
            hcid' ▸ List.mem_map_of_mem _ (mem_removeFirst hc'')
          exact hnd.1 this
        · rw [List.map_cons, List.mem_cons]
          rintro (heq | hmem)
          · exact h heq.symm
          · exact ih2 hmem

/-! ## Claim C9 : the two indexes of the chat store agree

The invariant `StoreWF` ties the two Go maps of a `ChatStore` together; it is
established by `NewChatStore` and preserved by `AddChat` (for a fresh ID),
`DeleteChat` and `DeleteChatsByRoom`. -/

structure StoreWF (s : ChatStore) : Prop where
  chatsNodup : (keysOf s.chats).Nodup
  roomsNodup : (keysOf s.chatsByRoom).Nodup
  chatsKey : ∀ p ∈ s.chats, p.2.id = p.1
  chatsMem : ∀ p ∈ s.chats, p.2 ∈ s.byRoom p.2.roomId
  roomMem : ∀ q ∈ s.chatsByRoom, ∀ c ∈ q.2,
      c.roomId = q.1 ∧ mapLookup c.id s.chats = some c
  roomIds : ∀ q ∈ s.chatsByRoom, (q.2.map (·.id)).Nodup

theorem byRoom_cases (s : ChatStore) (r : String) :
    s.byRoom r = [] ∨
      (mapLookup r s.chatsByRoom = some (s.byRoom r) ∧
        (r, s.byRoom r) ∈ s.chatsByRoom) := by
  rw [ChatStore.byRoom]
  cases h : mapLookup r s.chatsByRoom with
  | none => simp
  | some l => exact Or.inr ⟨by simp, mem_of_mapLookup_eq_some (by simpa using h)⟩

theorem StoreWF.byRoomMem {s : ChatStore} (w : StoreWF s) {r : String}
    {c : Chat} (h : c ∈ s.byRoom r) :
    c.roomId = r ∧ mapLookup c.id s.chats = some c := by
  rcases byRoom_cases s r with hnil | ⟨_, hmem⟩
  · rw [hnil] at h
    simp at h
  · exact w.roomMem _ hmem c h

theorem StoreWF.byRoomIds {s : ChatStore} (w : StoreWF s) (r : String) :
    ((s.byRoom r).map (·.id)).Nodup := by
  rcases byRoom_cases s r with hnil | ⟨_, hmem⟩
  · simp [hnil]
  · exact w.roomIds _ hmem

theorem StoreWF.new : StoreWF NewChatStore := by
  constructor <;> simp [NewChatStore, keysOf]

theorem StoreWF.addChat {s : ChatStore} {c : Chat} (w : StoreWF s)
    (h : mapLookup c.id s.chats = none) : StoreWF (s.AddChat c) := by
  have hne_of_look : ∀ ch : Chat, mapLookup ch.id s.chats = some ch →
      ch.id ≠ c.id := by
    intro ch hl heq
    rw [heq, h] at hl
    exact Option.noConfusion hl
  have hlook_pres : ∀ ch : Chat, mapLookup ch.id s.chats = some ch →
      mapLookup ch.id (s.AddChat c).chats = some ch := by
    intro ch hl
    show mapLookup ch.id (mapInsert c.id c s.chats) = some ch
    rw [mapLookup_insert_ne (Ne.symm (hne_of_look ch hl)), hl]
  constructor
  · exact keysOf_mapInsert_nodup _ _ w.chatsNodup
  · exact keysOf_mapInsert_nodup _ _ w.roomsNodup
  · intro p hp
    rcases (mem_mapInsert_iff w.chatsNodup).mp hp with rfl | ⟨hm, _⟩
    · rfl
    · exact w.chatsKey p hm
  · intro p hp
    rcases (mem_mapInsert_iff w.chatsNodup).mp hp with rfl | ⟨hm, _⟩
    · rw [byRoom_AddChat, if_pos rfl]
      exact List.mem_append_right _ (List.mem_singleton_self c)
    · have := w.chatsMem p hm
      rw [byRoom_AddChat]
      by_cases hr : c.roomId = p.2.roomId
      · rw [if_pos hr]
        exact List.mem_append_left _ this
      · rwa [if_neg hr]
  · intro q hq ch hch
    rcases (mem_mapInsert_iff w.roomsNodup).mp hq with rfl | ⟨hm, _⟩
    · rcases List.mem_append.mp hch with hch | hch
      · obtain ⟨hr, hl⟩ := w.byRoomMem hch
        exact ⟨hr, hlook_pres ch hl⟩
      · obtain rfl := List.mem_singleton.mp hch
        exact ⟨rfl, mapLookup_insert_self _ _ _⟩
    · obtain ⟨hr, hl⟩ := w.roomMem q hm ch hch
      exact ⟨hr, hlook_pres ch hl⟩
  · intro q hq
    rcases (mem_mapInsert_iff w.roomsNodup).mp hq with rfl | ⟨hm, _⟩
    · rw [List.map_append]
      refine List.Nodup.append (w.byRoomIds _) (List.nodup_singleton _) ?_
      intro x hx hx2
      obtain ⟨ch, hch, hchid⟩ := List.mem_map.mp hx
      have hchid' : ch.id = x := hchid
      obtain rfl := List.mem_singleton.mp hx2
      exact hne_of_look ch (w.byRoomMem hch).2 hchid'
    · exact w.roomIds q hm

theorem StoreWF.deleteChat {s : ChatStore} (w : StoreWF s) (id : String) :
    StoreWF (s.DeleteChat id).1 := by
  cases hl : mapLookup id s.chats with
  | none =>
      have hres : (s.DeleteChat id).1 = s := by
        rw [ChatStore.DeleteChat, hl]
      rwa [hres]
  | some chat =>
      have hchat_mem : (id, chat) ∈ s.chats := mem_of_mapLookup_eq_some hl
      have hcid : chat.id = id := w.chatsKey _ hchat_mem
      have hcmem : chat ∈ s.byRoom chat.roomId := w.chatsMem _ hchat_mem
      have hfound : (removeFirst id (s.byRoom chat.roomId)).2 = true :=
        removeFirst_found ⟨chat, hcmem, hcid⟩
      have hres : (s.DeleteChat id).1 =
          ⟨mapErase id s.chats,
            mapInsert chat.roomId (removeFirst id (s.byRoom chat.roomId)).1
              s.chatsByRoom⟩ := by
        rw [ChatStore.DeleteChat, hl]
        simp [hfound]
      obtain ⟨rfNodup, rfNoId⟩ :
          ((removeFirst id (s.byRoom chat.roomId)).1.map (·.id)).Nodup ∧
            id ∉ (removeFirst id (s.byRoom chat.roomId)).1.map (·.id) :=
        removeFirst_ids (w.byRoomIds chat.roomId)
      have hbyRoom : ∀ rr, (s.DeleteChat id).1.byRoom rr =
          if chat.roomId = rr then (removeFirst id (s.byRoom chat.roomId)).1
          else s.byRoom rr := by
        intro rr
        rw [hres]
        by_cases hr : chat.roomId = rr
        · subst hr
          simp [ChatStore.byRoom, mapLookup_insert_self]
        · simp [ChatStore.byRoom, mapLookup_insert_ne hr, hr]
      have hchats : (s.DeleteChat id).1.chats = mapErase id s.chats := by
        rw [hres]
      have hrooms : (s.DeleteChat id).1.chatsByRoom =
          mapInsert chat.roomId (removeFirst id (s.byRoom chat.roomId)).1
            s.chatsByRoom := by
        rw [hres]
      constructor
      · rw [hchats]
        exact keysOf_mapErase_nodup _ w.chatsNodup
      · rw [hrooms]
        exact keysOf_mapInsert_nodup _ _ w.roomsNodup
      · intro p hp
        rw [hchats] at hp
        exact w.chatsKey p ((mem_mapErase_iff w.chatsNodup).mp hp).1
      · intro p hp
        rw [hchats] at hp
        obtain ⟨hm, hne⟩ := (mem_mapErase_iff w.chatsNodup).mp hp
        have hidne : p.2.id ≠ id := by
          rw [w.chatsKey p hm]
          exact hne
        have hmem := w.chatsMem p hm
        rw [hbyRoom]
        by_cases hr : chat.roomId = p.2.roomId
        · rw [if_pos hr]
          exact mem_removeFirst_of_ne (by rw [hr]; exact hmem) hidne
        · rwa [if_neg hr]
      · intro q hq ch hch
        rw [hrooms] at hq
        rw [hchats]
        rcases (mem_mapInsert_iff w.roomsNodup).mp hq with rfl | ⟨hm, hne⟩
        · have hch' : ch ∈ s.byRoom chat.roomId := mem_removeFirst hch
          obtain ⟨hr, hlk⟩ := w.byRoomMem hch'
          have hch2 : ch ∈ (removeFirst id (s.byRoom chat.roomId)).1 := hch
          have hchid : ch.id ∈
              (removeFirst id (s.byRoom chat.roomId)).1.map (·.id) :=
            List.mem_map_of_mem _ hch2
          have hidne : id ≠ ch.id := fun heq => rfNoId (heq.symm ▸ hchid)
          rw [mapLookup_erase_ne hidne]
          exact ⟨hr, hlk⟩
        · obtain ⟨hr, hlk⟩ := w.roomMem q hm ch hch
          have hidne : id ≠ ch.id := by
            rintro rfl
            rw [hl] at hlk
            obtain rfl : chat = ch := Option.some_injective _ hlk
            exact hne hr.symm
          rw [mapLookup_erase_ne hidne]
          exact ⟨hr, hlk⟩
      · intro q hq
        rw [hrooms] at hq
        rcases (mem_mapInsert_iff w.roomsNodup).mp hq with rfl | ⟨hm, _⟩
        · exact rfNodup
        · exact w.roomIds q hm

theorem StoreWF.deleteChatsByRoom {s : ChatStore} (w : StoreWF s)
    (roomId : String) : StoreWF (s.DeleteChatsByRoom roomId) := by
  have hchats : (s.DeleteChatsByRoom roomId).chats =
      (s.byRoom roomId).foldl (fun m c => mapErase c.id m) s.chats := rfl
  have hrooms : (s.DeleteChatsByRoom roomId).chatsByRoom =
      mapErase roomId s.chatsByRoom := rfl
  have hbyRoom : ∀ rr, (s.DeleteChatsByRoom roomId).byRoom rr =
      if rr = roomId then [] else s.byRoom rr := by
    intro rr
    by_cases hr : rr = roomId
    · subst hr
      simp [ChatStore.byRoom, ChatStore.DeleteChatsByRoom,
        mapLookup_erase_self _ w.roomsNodup]
    · simp [ChatStore.byRoom, ChatStore.DeleteChatsByRoom,
        mapLookup_erase_ne (fun h => hr h.symm), hr]
  have hnotin_ids : ∀ ch : Chat, mapLookup ch.id s.chats = some ch →
      ch.roomId ≠ roomId → ch.id ∉ (s.byRoom roomId).map (·.id) := by
    intro ch hlk hne hmem
    obtain ⟨ch', hch', hchid⟩ := List.mem_map.mp hmem
    have hchid' : ch'.id = ch.id := hchid
    obtain ⟨hr', hlk'⟩ := w.byRoomMem hch'
    rw [hchid', hlk] at hlk'
    obtain rfl : ch = ch' := Option.some_injective _ hlk'
    exact hne hr'
  constructor
  · rw [hchats]
    exact keysOf_foldl_erase_nodup _ _ w.chatsNodup
  · rw [hrooms]
    exact keysOf_mapErase_nodup _ w.roomsNodup
  · intro p hp
    rw [hchats] at hp
    exact w.chatsKey p
      ((mem_foldl_erase_iff _ _ w.chatsNodup p).mp hp).1
  · intro p hp
    rw [hchats] at hp
    obtain ⟨hm, hnid⟩ := (mem_foldl_erase_iff _ _ w.chatsNodup p).mp hp
    have hmem := w.chatsMem p hm
    have hrne : p.2.roomId ≠ roomId := by
      rintro heq
      apply hnid
      rw [← w.chatsKey p hm]
      exact List.mem_map_of_mem _ (heq ▸ hmem)
    rw [hbyRoom, if_neg hrne]
    exact hmem
  · intro q hq ch hch
    rw [hrooms] at hq
    obtain ⟨hm, hne⟩ := (mem_mapErase_iff w.roomsNodup).mp hq
    obtain ⟨hr, hlk⟩ := w.roomMem q hm ch hch
    refine ⟨hr, ?_⟩
    rw [hchats, mapLookup_foldl_erase _ _ w.chatsNodup,
      if_neg (hnotin_ids ch hlk (fun heq => hne (hr.symm ▸ heq ▸ rfl)))]
    exact hlk
  · intro q hq
    rw [hrooms] at hq
    exact w.roomIds q ((mem_mapErase_iff w.roomsNodup).mp hq).1

/-- The `ChatStore` states reachable from `NewChatStore` through the store's
mutating methods, `AddChat` being called only with an ID not already in the
store (the handlers create each chat with a fresh UUID). -/
inductive Reachable : ChatStore → Prop where
  | init : Reachable NewChatStore
  | add {s : ChatStore} {c : Chat} : Reachable s →
      mapLookup c.id s.chats = none → Reachable (s.AddChat c)
  | del {s : ChatStore} (id : String) : Reachable s →
      Reachable (s.DeleteChat id).1
  | delRoom {s : ChatStore} (roomId : String) : Reachable s →
      Reachable (s.DeleteChatsByRoom roomId)

theorem Reachable.wf {s : ChatStore} (h : Reachable s) : StoreWF s := by
  induction h with
  | init => exact StoreWF.new
  | add _ hfresh ih => exact ih.addChat hfresh
  | del id _ ih => exact ih.deleteChat id
  | delRoom roomId _ ih => exact ih.deleteChatsByRoom roomId

/-- Claim C9:  In every store state reachable from `NewChatStore` by `AddChat`
calls with fresh IDs, `DeleteChat` calls and `DeleteChatsByRoom` calls, the
two internal indexes agree: a chat is in the `chats` map (under its own ID)
iff it occurs exactly once in `chatsByRoom` under its `RoomID`; consequently
`GetChats` and the union over all rooms of `GetChatsByRoom` return exactly
the same set of chats. -/
theorem chat_indexes_agree (s : ChatStore) (hs : Reachable s) :
    (∀ c : Chat, mapLookup c.id s.chats = some c ↔
      (s.byRoom c.roomId).count c = 1) ∧
    (∀ c : Chat, c ∈ s.GetChats ↔ ∃ r, c ∈ s.GetChatsByRoom r) := by
  have w := hs.wf
  constructor
  · intro c
    constructor
    · intro hl
      have hmem : c ∈ s.byRoom c.roomId :=
        w.chatsMem (c.id, c) (mem_of_mapLookup_eq_some hl)
      have hnd : (s.byRoom c.roomId).Nodup := (w.byRoomIds c.roomId).of_map
      exact List.count_eq_one_of_mem hnd hmem
    · intro hcount
      have hmem : c ∈ s.byRoom c.roomId := by
        by_contra hnot
        rw [List.count_eq_zero_of_not_mem hnot] at hcount
        exact Nat.zero_ne_one hcount
      exact (w.byRoomMem hmem).2
  · intro c
    constructor
    · intro hc
      simp only [ChatStore.GetChats] at hc
      obtain ⟨p, hp, hpc⟩ := List.mem_map.mp hc
      refine ⟨p.2.roomId, ?_⟩
      rw [ChatStore.GetChatsByRoom, copySlice_eq]
      exact hpc ▸ w.chatsMem p hp
    · rintro ⟨r, hc⟩
      rw [ChatStore.GetChatsByRoom, copySlice_eq] at hc
      have hl := (w.byRoomMem hc).2
      simp only [ChatStore.GetChats]
      exact List.mem_map_of_mem _ (mem_of_mapLookup_eq_some hl)

theorem chat_indexes_agree_witness :
    (mapLookup (Chat.mk "c1" "r1" "alice" "hi" 0).id
        (NewChatStore.AddChat (Chat.mk "c1" "r1" "alice" "hi" 0)).chats =
      some (Chat.mk "c1" "r1" "alice" "hi" 0) ↔
      ((NewChatStore.AddChat (Chat.mk "c1" "r1" "alice" "hi" 0)).byRoom
          (Chat.mk "c1" "r1" "alice" "hi" 0).roomId).count
        (Chat.mk "c1" "r1" "alice" "hi" 0) = 1) ∧
    (Chat.mk "c1" "r1" "alice" "hi" 0 ∈
        (NewChatStore.AddChat (Chat.mk "c1" "r1" "alice" "hi" 0)).GetChats ↔
      ∃ r, Chat.mk "c1" "r1" "alice" "hi" 0 ∈
        (NewChatStore.AddChat
          (Chat.mk "c1" "r1" "alice" "hi" 0)).GetChatsByRoom r) :=
  ⟨(chat_indexes_agree _ (Reachable.add Reachable.init rfl)).1 _,
   (chat_indexes_agree _ (Reachable.add Reachable.init rfl)).2 _⟩

/-! ## Claim C8 : the broadcast payload vocabulary

The application enqueues onto `hub.broadcast` in exactly two places:
`CreateRoom` sends `[]byte("new-room")` after `h.RoomStore.AddRoom(room)`,
and `CreateChat` sends `[]byte("new-chat")` after `h.ChatStore.AddChat(chat)`.
Both handlers skip the store mutation *and* the broadcast when form binding
fails, and `CreateChat` also when the room does not exist; every other
handler never touches `hub.broadcast`.  The model captures each handler as
its store effect plus the list of payloads it enqueues. -/

structure Room where
  id : String
  name : String
  createdAt : ℕ
deriving DecidableEq

structure RoomStore where
  rooms : List (String × Room)
deriving DecidableEq

def RoomStore.AddRoom (s : RoomStore) (r : Room) : RoomStore :=
  ⟨mapInsert r.id r s.rooms⟩

def RoomStore.GetRoom (s : RoomStore) (id : String) : Option Room :=
  mapLookup id s.rooms

structure AppState where
  roomStore : RoomStore
  chatStore : ChatStore

/-- One HTTP request to a broadcast-producing handler.  `bindOk` is whether
`c.ShouldBind(&input)` succeeds (the required form fields are present). -/
inductive AppReq where
  | createRoom (bindOk : Bool) (room : Room)
  | createChat (roomId : String) (bindOk : Bool) (chat : Chat)

/-- The store mutation and broadcast enqueues of one handler call:
`CreateRoom` binds, adds the room, then enqueues `"new-room"`; `CreateChat`
checks the room exists, binds, adds the chat, then enqueues `"new-chat"`.
Error paths render an error and enqueue nothing. -/
def appStep (st : AppState) : AppReq → AppState × List String
  | .createRoom ok room =>
      if ok then
        ({ st with roomStore := st.roomStore.AddRoom room }, ["new-room"])
      else (st, [])
  | .createChat roomId ok chat =>
      match st.roomStore.GetRoom roomId with
      | none => (st, [])
      | some _ =>
          if ok then
            ({ st with chatStore := st.chatStore.AddChat chat }, ["new-chat"])
          else (st, [])

/-- A sequence of handler calls: final state and every payload handed to the
hub's broadcast channel, in order. -/
def appRun (st : AppState) : List AppReq → AppState × List String
  | [] => (st, [])
  | q :: rest =>
      let r := appStep st q
      let rr := appRun r.1 rest
      (rr.1, r.2 ++ rr.2)

theorem appStep_payloads (st : AppState) (q : AppReq) :
    ∀ p ∈ (appStep st q).2, p = "new-room" ∨ p = "new-chat" := by
  intro p hp
  cases q with
  | createRoom ok room =>
      by_cases h : ok = true
      · simp [appStep, h] at hp
        simp [hp]
      · simp [appStep, h] at hp
  | createChat roomId ok chat =>
      rw [appStep] at hp
      cases hg : st.roomStore.GetRoom roomId with
      | none =>
          rw [hg] at hp
          simp at hp
      | some room =>
          rw [hg] at hp
          by_cases h : ok = true
          · simp [h] at hp
            simp [hp]
          · simp [h] at hp

theorem appRun_payloads (reqs : List AppReq) :
    ∀ (st : AppState) (p : String), p ∈ (appRun st reqs).2 →
      p = "new-room" ∨ p = "new-chat" := by
  induction reqs with
  | nil => intro st p hp; simp [appRun] at hp
  | cons q rest ih =>
      intro st p hp
      rw [appRun] at hp
      rcases List.mem_append.mp hp with hp | hp
      · exact appStep_payloads st q p hp
      · exact ih _ p hp

theorem run_payload_from_event :
    ∀ (evs : List Event) (s : HubState) (o : EOut),
      o ∈ (s.run evs).2 → ∀ q : String, o.payload = some q →
      ∃ fails, Event.broadcast q fails ∈ evs := by
  intro evs
  induction evs with
  | nil => intro s o ho; simp [HubState.run] at ho
  | cons e rest ih =>
      intro s o ho q hq
      rw [HubState.run] at ho
      rcases List.mem_cons.mp ho with rfl | ho'
      · cases e with
        | register d => simp [HubState.step] at hq
        | unregister d =>
            by_cases hd : d ∈ s.clients <;> simp [HubState.step, hd] at hq
        | broadcast p fails =>
            obtain rfl : p = q := by
              simpa [HubState.step] using hq
            exact ⟨fails, List.mem_cons_self _ _⟩
      · obtain ⟨fails, hf⟩ := ih _ o ho' q hq
        exact ⟨fails, List.mem_cons_of_mem _ hf⟩

/-- Claim C8:  Every payload the application hands to the hub's broadcast
channel is `"new-room"` (enqueued by `CreateRoom` after the room store
mutation) or `"new-chat"` (enqueued by `CreateChat` after the chat store
mutation); hence, for any hub event sequence whose broadcast payloads all
come from the application, every message the coordinator writes to any
client is one of those two strings. -/
theorem broadcast_payload_vocabulary
    (st : AppState) (reqs : List AppReq) (hevs : List Event) (s : HubState)
    (hh : ∀ p fails, Event.broadcast p fails ∈ hevs →
      p ∈ (appRun st reqs).2) :
    (∀ p ∈ (appRun st reqs).2, p = "new-room" ∨ p = "new-chat") ∧
    (∀ o ∈ (s.run hevs).2, ∀ q : String, o.payload = some q →
      q = "new-room" ∨ q = "new-chat") := by
  refine ⟨fun p hp => appRun_payloads reqs st p hp, ?_⟩
  intro o ho q hq
  obtain ⟨fails, hf⟩ := run_payload_from_event hevs s o ho q hq
  exact appRun_payloads reqs st q (hh q fails hf)

theorem broadcast_payload_vocabulary_witness :
    (∀ p ∈ (appRun ⟨⟨[]⟩, NewChatStore⟩
        [.createRoom true (Room.mk "r1" "General" 0)]).2,
      p = "new-room" ∨ p = "new-chat") ∧
    (∀ o ∈ (HubState.run ⟨{0}⟩ [.broadcast "new-room" ∅]).2,
      ∀ q : String, o.payload = some q →
      q = "new-room" ∨ q = "new-chat") := by
  refine broadcast_payload_vocabulary ⟨⟨[]⟩, NewChatStore⟩
    [.createRoom true (Room.mk "r1" "General" 0)]
    [.broadcast "new-room" ∅] ⟨{0}⟩ ?_
  intro p fails h
  rcases List.mem_singleton.mp h with heq
  cases heq
  simp [appRun, appStep]

end Htmx
